import Mathlib

/-!
Verification of the emoji cheat-sheet generator's cross-source join and
categorization pipeline (src/src/main.rs), as a shallow embedding.

Rust maps (`std::collections::HashMap`) are modelled as association lists:
the list records the key-value content (`mapGet?`, `mapInsertReplace`,
`insertPush` mirror `get`, `insert`, `entry(..).or_insert(..).push(..)`).
`HashMap` iteration yields entries in an arbitrary, unspecified order; that
is modelled by `hashIterOrder` (any permutation of the entries).

Rust panics (`unwrap`, out-of-bounds `Vec` indexing) are modelled as
`Except.error RunError.panicked`; an error value returned to the caller
through the `?` operator would be `RunError.errorResult`.  The modelled
portion of the program never constructs `errorResult`.
-/

namespace EmojiSheet

/-- A parsed JSON value, reduced to the shapes the adapter distinguishes:
strings, objects, and everything else (`other` collapses arrays, numbers,
booleans and null, which the adapter treats uniformly). -/
inductive Json where
  | str (s : String)
  | obj (entries : List (String × Json))
  | other

/-- How a run can fail.  `panicked` models a Rust panic (an `unwrap` on
`None`, or `Vec` indexing out of bounds): the process aborts and no error
value reaches the caller.  `errorResult` models an error value propagated
to the caller with `?`; the modelled code never constructs one. -/
inductive RunError where
  | panicked
  | errorResult (msg : String)
  deriving DecidableEq

/-- `enum EmojiLiteral` from the source: a shortcode's image is either a
Unicode codepoint sequence or a custom (opaque) asset name. -/
inductive EmojiLiteral where
  | Unicode (codePoints : List Char)
  | Custom (uri : List String)
  deriving DecidableEq

/-- Does the character list start with `pat`? -/
def startsWithL (pat : List Char) : List Char → Bool
  | l =>
    match pat, l with
    | [], _ => true
    | _ :: _, [] => false
    | p :: ps, c :: cs => p = c && startsWithL ps cs

/-- `some r` when `l = pat ++ r`, else `none`. -/
def stripPreL (pat : List Char) : List Char → Option (List Char)
  | l =>
    match pat, l with
    | [], _ => some l
    | _ :: _, [] => none
    | p :: ps, c :: cs => if p = c then stripPreL ps cs else none

/-- Does `pat` occur as a contiguous sub-list of `l`? -/
def containsL (pat : List Char) : List Char → Bool
  | [] => startsWithL pat []
  | c :: cs => startsWithL pat (c :: cs) || containsL pat cs

/-- Substring test: models Rust `str::contains` for a string pattern. -/
def strContains (hay pat : String) : Bool :=
  containsL pat.data hay.data

/-- Split at each non-overlapping occurrence of `sep` (non-empty), scanning
left to right; `fuel` bounds the recursion by the input length and `acc`
holds the reversed current piece.  Models Rust `str::split` and Lean's
`String.splitOn` on the same data. -/
def splitFuel (sep : List Char) : Nat → List Char → List Char → List (List Char)
  | _, [], acc => [acc.reverse]
  | 0, l, acc => [acc.reverse ++ l]
  | fuel + 1, c :: cs, acc =>
    match stripPreL sep (c :: cs) with
    | some rest => acc.reverse :: splitFuel sep fuel rest []
    | none => splitFuel sep fuel cs (c :: acc)

/-- Split a character list on a separator. -/
def splitOnL (sep l : List Char) : List (List Char) :=
  splitFuel sep l.length l []

/-- Split a string on a separator: models Rust `str::split` with a string
pattern. -/
def strSplitOn (s sep : String) : List String :=
  (splitOnL sep.data s.data).map String.mk

/-- Join with a separator: models `[String]::join`. -/
def joinSep (sep : String) : List String → String
  | [] => ""
  | [x] => x
  | x :: xs => x ++ sep ++ joinSep sep xs

/-- Replace every non-overlapping occurrence of `pat` by `rep`: models Rust
`str::replace`. -/
def strReplaceAll (s pat rep : String) : String :=
  joinSep rep (strSplitOn s pat)

/-- The value of a hexadecimal digit, if `c` is one. -/
def hexDigitVal? (c : Char) : Option Nat :=
  if '0' ≤ c ∧ c ≤ '9' then some (c.toNat - '0'.toNat)
  else if 'a' ≤ c ∧ c ≤ 'f' then some (c.toNat - 'a'.toNat + 10)
  else if 'A' ≤ c ∧ c ≤ 'F' then some (c.toNat - 'A'.toNat + 10)
  else none

/-- Models Rust `u32::from_str_radix(s, 16)`: an optional leading `+`, then
at least one hex digit, and the value must fit in a `u32`. -/
def fromStrRadix16 (s : String) : Option Nat :=
  let ds := match s.data with
    | '+' :: rest => rest
    | l => l
  if ds.isEmpty then none
  else
    (ds.foldlM (fun acc c => (hexDigitVal? c).map (fun d => acc * 16 + d)) 0).bind
      (fun n => if n < 2 ^ 32 then some n else none)

/-- Models Rust `char::from_u32`: `some` exactly on Unicode scalar values
(below the surrogate range, or between it and 0x10FFFF). -/
def charFromU32 (n : Nat) : Option Char :=
  if n.isValidChar then some (Char.ofNat n) else none

/-- One hex chunk of a unicode URL: `from_str_radix` then `from_u32`, each
`unwrap` modelled as a panic. -/
def parseCodePoint (t : String) : Except RunError Char :=
  match fromStrRadix16 t with
  | none => .error .panicked
  | some n =>
    match charFromU32 n with
    | none => .error .panicked
    | some c => .ok c

/-- `url.split('/').last().unwrap().split(".png").next().unwrap()`: the last
`/`-separated segment of the URL, truncated before the first occurrence of
`".png"`.  Both splits always yield at least one piece, so the two
`unwrap`s cannot fail; they are rendered with total defaults. -/
def fileStem (url : String) : String :=
  (strSplitOn ((strSplitOn url "/").getLastD "") ".png").headD ""

/-- Classification of one shortcode's URL (body of the loop in
`get_github_emoji_id_map`): if the URL contains `"/unicode/"`, parse the
`-`-separated file stem as hex codepoints (panicking on a bad chunk),
otherwise keep the file stem as a custom name. -/
def classifyUrl (url : String) : Except RunError EmojiLiteral :=
  if strContains url "/unicode/" then
    match (strSplitOn (fileStem url) "-").mapM parseCodePoint with
    | .error e => .error e
    | .ok cps => .ok (.Unicode cps)
  else
    .ok (.Custom [fileStem url])

/-- One entry of the shortcode JSON object: `url.as_str().unwrap()` panics
when the value is not a JSON string; otherwise classify the URL. -/
def adapterEntry (p : String × Json) : Except RunError (String × EmojiLiteral) :=
  match p.2 with
  | .str url =>
    match classifyUrl url with
    | .error e => .error e
    | .ok lit => .ok (p.1, lit)
  | _ => .error .panicked

/-- `get_github_emoji_id_map`, after the HTTP fetch and JSON decode:
`json.as_object().unwrap()` panics when the body is not an object;
otherwise each entry is classified.  The resulting map is represented by
its list of entries. -/
def get_github_emoji_id_map (j : Json) : Except RunError (List (String × EmojiLiteral)) :=
  match j with
  | .obj entries => entries.mapM adapterEntry
  | _ => .error .panicked

/-- Modelled from the spec: the `unicode_categories` crate's
`is_mark_spacing_combining` (Unicode general category Mc), restricted to a
table of Devanagari spacing-combining marks — the Mc codepoints exercised
in this development.  Every codepoint listed here genuinely has general
category Mc. -/
def isMc (c : Char) : Bool :=
  c.val = 0x903 ∨ c.val = 0x93B ∨ (0x93E ≤ c.val ∧ c.val ≤ 0x940) ∨
    (0x949 ≤ c.val ∧ c.val ≤ 0x94C) ∨ c.val = 0x94E ∨ c.val = 0x94F

/-- Modelled from the spec: characters that extend the preceding grapheme
cluster under the core pairwise rules of UAX #29 (GB9/GB9a): the zero-width
joiner, variation selectors, combining diacritical marks, the combining
enclosing keycap, emoji skin-tone modifiers, and spacing-combining marks. -/
def extendsCluster (c : Char) : Bool :=
  c.val = 0x200D ∨ (0xFE00 ≤ c.val ∧ c.val ≤ 0xFE0F) ∨
    (0x300 ≤ c.val ∧ c.val ≤ 0x36F) ∨ c.val = 0x20E3 ∨
    (0x1F3FB ≤ c.val ∧ c.val ≤ 0x1F3FF) ∨ isMc c

/-- Modelled from the spec: the pairwise grapheme-cluster boundary rule —
break between two adjacent characters unless the second one extends the
cluster.  The `unicode_segmentation` crate's boundary decisions that matter
here are pairwise in exactly this sense. -/
def br0 (_x y : Char) : Bool :=
  ! extendsCluster y

/-- Cuts a character list into grapheme clusters relative to a pairwise
boundary function `br`: `segGo br c cs` segments `c :: cs`, with `br x y =
true` meaning a cluster boundary falls between adjacent `x` and `y`. -/
def segGo (br : Char → Char → Bool) (c : Char) : List Char → List (List Char)
  | [] => [[c]]
  | d :: ds =>
    match segGo br d ds with
    | [] => [[c]]
    | g :: gs => if br c d then [c] :: g :: gs else (c :: g) :: gs

/-- Grapheme-cluster segmentation of a character list. -/
def segment (br : Char → Char → Bool) : List Char → List (List Char)
  | [] => []
  | c :: cs => segGo br c cs

/-- The filter applied to each cluster in the categorizer:
`g.chars().any(|c| !c.is_mark_spacing_combining())` — keep a cluster iff it
has at least one character that is not a spacing-combining mark. -/
def keepCluster (mc : Char → Bool) (g : List Char) : Bool :=
  g.any (fun c => ! mc c)

/-- The key normalization on character lists: segment into clusters, drop
the clusters consisting entirely of spacing-combining marks, concatenate
the rest. -/
def normalizeChars (br : Char → Char → Bool) (mc : Char → Bool) (l : List Char) : List Char :=
  ((segment br l).filter (keepCluster mc)).flatten

/-- Key normalization on strings, generic in the boundary rule and the
mark predicate. -/
def normalizeKeyGen (br : Char → Char → Bool) (mc : Char → Bool) (s : String) : String :=
  String.mk (normalizeChars br mc s.data)

/-- The key computed from a chart row's glyph text (lines 152-157 of the
source), with the modelled segmentation and mark table. -/
def normalizeKey (s : String) : String :=
  normalizeKeyGen br0 isMc s

/-- `to_title_case` from the source: replace `-` by a space, split on
whitespace, uppercase each word's first character, join with single
spaces.  (Rust's `char::to_uppercase` full mapping is modelled by
`Char.toUpper`, and `split_whitespace` by splitting on the space
character; they agree on the ASCII titles used here.) -/
def capitalizeWord (w : String) : String :=
  match w.data with
  | [] => ""
  | f :: rest => String.mk (f.toUpper :: rest)

/-- Title-casing of chart headings. -/
def to_title_case (s : String) : String :=
  joinSep " "
    (((strSplitOn (strReplaceAll s "-" " ") " ").filter (fun w => w ≠ "")).map capitalizeWord)

/-- Lookup in an association-list map: the content of `HashMap::get`. -/
def mapGet? {α : Type} : List (String × α) → String → Option α
  | [], _ => none
  | (k', v) :: rest, k => if k' = k then some v else mapGet? rest k

/-- `HashMap::insert`: replace the value of an existing key, else add the
entry. -/
def mapInsertReplace {α : Type} : List (String × α) → String → α → List (String × α)
  | [], k, v => [(k, v)]
  | (k', v') :: rest, k, v =>
    if k' = k then (k, v) :: rest else (k', v') :: mapInsertReplace rest k v

/-- `map.entry(k).or_insert_with(Vec::new).push(v)`: append `v` to the
key's vector, creating the entry when absent. -/
def insertPush : List (String × List String) → String → String → List (String × List String)
  | [], k, v => [(k, [v])]
  | (k', vs) :: rest, k, v =>
    if k' = k then (k', vs ++ [v]) :: rest else (k', vs) :: insertPush rest k v

/-- The loop over `github_emoji_id_map` (lines 106-122): build
`custom_to_ids` (first component) and `key_to_ids` (second component).  A
Unicode entry is keyed by the raw concatenation of its codepoints; a
Custom entry by `uri[0]` (always the singleton's element). -/
def buildMapsAux :
    List (String × EmojiLiteral) →
    List (String × List String) × List (String × List String) →
    List (String × List String) × List (String × List String)
  | [], acc => acc
  | (id, .Unicode cps) :: rest, acc =>
    buildMapsAux rest (acc.1, insertPush acc.2 (String.mk cps) id)
  | (id, .Custom uri) :: rest, acc =>
    buildMapsAux rest (insertPush acc.1 (uri.headD "") id, acc.2)

/-- The two precomputed inverted indexes. -/
def buildMaps (m : List (String × EmojiLiteral)) :
    List (String × List String) × List (String × List String) :=
  buildMapsAux m ([], [])

/-- One `tr` of the chart, reduced to what the categorizer inspects:
either the first child is a `th` (with its optional `class` attribute and
its text), or it is some other row (with the text of the first descendant
of class `chars`, when one exists). -/
inductive Tr where
  | th (cls : Option String) (text : String)
  | row (chars : Option String)
  deriving DecidableEq

/-- A category's subcategories: subcategory title to list of id-groups. -/
abbrev Subcats := List (String × List (List String))

/-- The categorization result: category title to subcategories. -/
abbrev Categorized := List (String × Subcats)

/-- The categorizer's mutable state: the result map under construction and
`category_stack` (a `Vec` pushed and popped at its end, so `stack[0]` is
the list's head). -/
structure CatState where
  categorized : Categorized
  stack : List String
  deriving DecidableEq

/-- One iteration of the `tr` loop (lines 128-173).  `bighead`: clear the
stack, push the title, and `insert` an empty subcategory map (replacing
any accumulated one).  `mediumhead`: pop when the stack holds more than
one entry, push the title, and `insert` an empty group list under
`stack[0]` (replacing any accumulated one).  Other rows: normalize the
`chars` text; when the key has shortcodes, read `stack[0]` and `stack[1]`
(out-of-bounds indexing panics) and push the id-group; otherwise skip. -/
def categorizeStep (keyToIds : List (String × List String)) (st : CatState) (tr : Tr) :
    Except RunError CatState :=
  match tr with
  | .th cls text =>
    match cls with
    | some c =>
      if c = "bighead" then
        let title := to_title_case text
        .ok ⟨mapInsertReplace st.categorized title [], [title]⟩
      else if c = "mediumhead" then
        let stack1 := if st.stack.length > 1 then st.stack.dropLast else st.stack
        let title := to_title_case text
        let stack2 := stack1 ++ [title]
        match stack2.head? with
        | some cat0 =>
          let inner := (mapGet? st.categorized cat0).getD []
          .ok ⟨mapInsertReplace st.categorized cat0 (mapInsertReplace inner title []), stack2⟩
        | none => .error .panicked
      else .ok st
    | none => .ok st
  | .row chars =>
    match chars with
    | none => .ok st
    | some text =>
      let key := normalizeKey text
      match mapGet? keyToIds key with
      | none => .ok st
      | some ids =>
        match st.stack.get? 0, st.stack.get? 1 with
        | some cat, some sub =>
          let outer := (mapGet? st.categorized cat).getD []
          let groups := (mapGet? outer sub).getD []
          .ok ⟨mapInsertReplace st.categorized cat
                (mapInsertReplace outer sub (groups ++ [ids])), st.stack⟩
        | _, _ => .error .panicked

/-- `categorize_github_emoji_ids`, after the chart fetch: fold the `tr`
loop over the chart rows, then, when `custom_to_ids` is non-empty,
`insert` the category `"GitHub Custom Emoji"` with the single empty-titled
subcategory holding the custom map's value vectors. -/
def categorize_github_emoji_ids (m : List (String × EmojiLiteral)) (trs : List Tr) :
    Except RunError Categorized :=
  match trs.foldlM (categorizeStep (buildMaps m).2) ⟨[], []⟩ with
  | .error e => .error e
  | .ok st =>
    if (buildMaps m).1 = [] then .ok st.categorized
    else
      .ok (mapInsertReplace st.categorized "GitHub Custom Emoji"
        [("", (buildMaps m).1.map (fun p => p.2))])

/-- Models the iteration order of a Rust `std::collections::HashMap`
holding entries `m`: the order is arbitrary, so any permutation of the
entries is an admissible iteration. -/
def hashIterOrder {α : Type} (m l : List (String × α)) : Prop :=
  l.Perm m

/-- Written from the claim C6's words, for comparison with the source's
key computation: the concatenation of the codepoints after removing every
spacing-combining mark. -/
def specNormalizeCps (cps : List Char) : String :=
  String.mk (cps.filter (fun c => ! isMc c))

/-- Written from the claim C7's words, for comparison with the source's
classification test: the path segment immediately before the file name. -/
def penultSeg (url : String) : String :=
  let segs := strSplitOn url "/"
  segs.getD (segs.length - 2) ""

/-- A character list with no internal cluster boundary: `br` refuses to
break between every pair of adjacent characters. -/
def NoSplit (br : Char → Char → Bool) (g : List Char) : Prop :=
  List.Chain' (fun x y => br x y = false) g

/-- The last character of the non-empty list `c :: bs`. -/
def lastChar (c : Char) : List Char → Char
  | [] => c
  | d :: ds => lastChar d ds

/- ### Association-list map lemmas -/

theorem mapGet?_insertReplace_self {α : Type} (m : List (String × α)) (k : String) (v : α) :
    mapGet? (mapInsertReplace m k v) k = some v := by
  induction m with
  | nil => simp [mapInsertReplace, mapGet?]
  | cons p rest ih =>
    by_cases h : p.1 = k
    · simp [mapInsertReplace, mapGet?, h]
    · simp only [mapInsertReplace, mapGet?]
      rw [if_neg h, mapGet?, if_neg h]
      exact ih

theorem mapGet?_insertReplace_ne {α : Type} (m : List (String × α)) (k k' : String) (v : α)
    (h : k ≠ k') : mapGet? (mapInsertReplace m k v) k' = mapGet? m k' := by
  induction m with
  | nil => simp [mapInsertReplace, mapGet?, h]
  | cons p rest ih =>
    by_cases hp : p.1 = k
    · simp only [mapInsertReplace]
      rw [if_pos hp, mapGet?, mapGet?, if_neg h, if_neg (hp ▸ h)]
    · simp only [mapInsertReplace]
      rw [if_neg hp, mapGet?, mapGet?]
      by_cases hp' : p.1 = k'
      · simp [hp']
      · rw [if_neg hp', if_neg hp']
        exact ih

theorem mapGet?_insertPush_self (m : List (String × List String)) (k v : String) :
    mapGet? (insertPush m k v) k = some (((mapGet? m k).getD []) ++ [v]) := by
  induction m with
  | nil => simp [insertPush, mapGet?]
  | cons p rest ih =>
    by_cases h : p.1 = k
    · simp [insertPush, mapGet?, h]
    · simp only [insertPush, mapGet?]
      rw [if_neg h, mapGet?, if_neg h, if_neg h]
      exact ih

theorem mapGet?_insertPush_ne (m : List (String × List String)) (k k' v : String)
    (h : k ≠ k') : mapGet? (insertPush m k v) k' = mapGet? m k' := by
  induction m with
  | nil => simp [insertPush, mapGet?, h]
  | cons p rest ih =>
    by_cases hp : p.1 = k
    · simp only [insertPush]
      rw [if_pos hp, mapGet?, mapGet?, if_neg (hp ▸ h), if_neg (hp ▸ h)]
    · simp only [insertPush]
      rw [if_neg hp, mapGet?, mapGet?]
      by_cases hp' : p.1 = k'
      · simp [hp']
      · rw [if_neg hp', if_neg hp']
        exact ih

/-- When `head?` is `some`, `headD` yields that head. -/
theorem headD_of_head? {α : Type} (l : List α) (d a : α) (h : l.head? = some a) :
    l.headD d = a := by
  cases l with
  | nil => cases h
  | cons x xs => cases h; rfl

/-- Membership in a key's bucket survives any further `insertPush`. -/
theorem insertPush_mem_mono (m : List (String × List String)) (k k' v id : String)
    (ids : List String) (h : mapGet? m k = some ids) (hid : id ∈ ids) :
    ∃ ids', mapGet? (insertPush m k' v) k = some ids' ∧ id ∈ ids' := by
  by_cases hk : k' = k
  · subst hk
    refine ⟨ids ++ [v], ?_, List.mem_append_left _ hid⟩
    rw [mapGet?_insertPush_self, h]
    rfl
  · exact ⟨ids, by rw [mapGet?_insertPush_ne m k' k v hk, h], hid⟩

/- ### Except / mapM lemmas -/

theorem except_bind_error {β γ : Type} (e : RunError) (g : β → Except RunError γ) :
    (Except.error e >>= g) = Except.error e := rfl

theorem except_bind_ok {β γ : Type} (b : β) (g : β → Except RunError γ) :
    (Except.ok b >>= g) = g b := rfl

/-- If every element of `l` can only fail with a panic, `mapM` can only
fail with a panic. -/
theorem mapM_error_only {α β : Type} (f : α → Except RunError β) (l : List α)
    (h : ∀ a ∈ l, ∀ e, f a = .error e → e = .panicked) :
    ∀ e, l.mapM f = .error e → e = .panicked := by
  induction l with
  | nil =>
    intro e he
    rw [List.mapM_nil] at he
    cases he
  | cons a l ih =>
    intro e he
    rw [List.mapM_cons] at he
    cases ha : f a with
    | error e' =>
      rw [ha, except_bind_error] at he
      cases he
      exact h a (List.mem_cons_self a l) _ ha
    | ok b =>
      rw [ha, except_bind_ok] at he
      cases hl : l.mapM f with
      | error e' =>
        rw [hl, except_bind_error] at he
        cases he
        exact ih (fun x hx => h x (List.mem_cons_of_mem a hx)) _ hl
      | ok bs => rw [hl] at he; simp [except_bind_ok] at he

/-- If some element of `l` fails and every failure is a panic, `mapM`
fails with a panic. -/
theorem mapM_hits_error {α β : Type} (f : α → Except RunError β) (l : List α)
    (h : ∀ a ∈ l, ∀ e, f a = .error e → e = .panicked)
    (hx : ∃ a ∈ l, ∃ e, f a = .error e) :
    l.mapM f = .error .panicked := by
  induction l with
  | nil => rcases hx with ⟨a, ha, _⟩; cases ha
  | cons a l ih =>
    rw [List.mapM_cons]
    cases ha : f a with
    | error e' =>
      rw [except_bind_error]
      have he' : e' = .panicked := h a (List.mem_cons_self a l) _ ha
      rw [he']
    | ok b =>
      rw [except_bind_ok]
      have hx' : ∃ x ∈ l, ∃ e, f x = .error e := by
        rcases hx with ⟨x, hxl, e, hfe⟩
        rcases List.mem_cons.mp hxl with rfl | hxl'
        · rw [ha] at hfe; cases hfe
        · exact ⟨x, hxl', e, hfe⟩
      rw [ih (fun x hx => h x (List.mem_cons_of_mem a hx)) hx', except_bind_error]

/-- `parseCodePoint` can only fail with a panic. -/
theorem parseCodePoint_error_only (t : String) (e : RunError)
    (h : parseCodePoint t = .error e) : e = .panicked := by
  unfold parseCodePoint at h
  split at h
  · cases h; rfl
  · split at h
    · cases h; rfl
    · cases h

/-- `classifyUrl` can only fail with a panic. -/
theorem classifyUrl_error_only (url : String) (e : RunError)
    (h : classifyUrl url = .error e) : e = .panicked := by
  unfold classifyUrl at h
  split at h
  · split at h
    · rename_i hm
      cases h
      exact mapM_error_only parseCodePoint _ (fun t _ => parseCodePoint_error_only t) _ hm
    · cases h
  · cases h

/-- `adapterEntry` can only fail with a panic. -/
theorem adapterEntry_error_only (p : String × Json) (e : RunError)
    (h : adapterEntry p = .error e) : e = .panicked := by
  unfold adapterEntry at h
  split at h
  · rename_i url hp2
    split at h
    · rename_i e' hc
      cases h
      exact classifyUrl_error_only url _ hc
    · cases h
  · cases h; rfl

/- ### Claims about the shortcode source adapter -/

/-- Claim C10 (confirmed): for every input JSON object in which at least
one value is not a JSON string, the shortcode adapter fails by panic (the
`unwrap` of `as_str`) rather than returning any result or error value; the
adapter is total only under the precondition that every value is a
string. -/
theorem C10_nonstring_value_panics (entries : List (String × Json))
    (h : ∃ p ∈ entries, ∀ s, p.2 ≠ Json.str s) :
    get_github_emoji_id_map (Json.obj entries) = Except.error RunError.panicked := by
  unfold get_github_emoji_id_map
  apply mapM_hits_error adapterEntry entries (fun p _ => adapterEntry_error_only p)
  rcases h with ⟨p, hp, hs⟩
  refine ⟨p, hp, .panicked, ?_⟩
  rcases p with ⟨id, v⟩
  cases v with
  | str url => exact absurd rfl (hs url)
  | obj l => rfl
  | other => rfl

/-- Witness for C10 at a concrete input: an object with one non-string
value makes the adapter panic. -/
theorem C10_witness :
    get_github_emoji_id_map (Json.obj [("a", Json.other)]) = Except.error RunError.panicked :=
  C10_nonstring_value_panics [("a", Json.other)]
    ⟨("a", Json.other), by simp, fun s h => Json.noConfusion h⟩

/-- Claim C4 (counterexample): on a body that is not a JSON object, and on
a unicode URL with a hex segment that does not parse, the adapter does not
return a MalformedSource error value to the caller — it panics, and no
offending id is reported. -/
theorem C4_counterexample :
    get_github_emoji_id_map Json.other = Except.error RunError.panicked ∧
    (∀ msg, get_github_emoji_id_map Json.other ≠ Except.error (RunError.errorResult msg)) ∧
    get_github_emoji_id_map (Json.obj [("bad", Json.str "https://x/unicode/zz.png")]) =
      Except.error RunError.panicked ∧
    (∀ msg, get_github_emoji_id_map (Json.obj [("bad", Json.str "https://x/unicode/zz.png")]) ≠
      Except.error (RunError.errorResult msg)) := by
  have h1 : get_github_emoji_id_map Json.other = Except.error RunError.panicked := rfl
  have h2 : get_github_emoji_id_map (Json.obj [("bad", Json.str "https://x/unicode/zz.png")]) =
      Except.error RunError.panicked := by rfl
  refine ⟨h1, ?_, h2, ?_⟩
  · intro msg h
    exact RunError.noConfusion (Except.error.inj (h1.symm.trans h))
  · intro msg h
    exact RunError.noConfusion (Except.error.inj (h2.symm.trans h))

/-- Claim C4 (amended): for every shortcode-source input whose body is not
a JSON object, or containing a string URL with `"/unicode/"` whose stem
has a segment that fails to parse as a hex codepoint, the adapter aborts
by panic; no MalformedSource error value is constructed. -/
theorem C4_amended (j : Json)
    (h : (∀ entries, j ≠ Json.obj entries) ∨
      ∃ entries id url, j = Json.obj entries ∧ (id, Json.str url) ∈ entries ∧
        strContains url "/unicode/" = true ∧
        ∃ t ∈ strSplitOn (fileStem url) "-", parseCodePoint t = Except.error RunError.panicked) :
    get_github_emoji_id_map j = Except.error RunError.panicked := by
  rcases h with h | ⟨entries, id, url, rfl, hmem, hu, t, ht, hbad⟩
  · cases j with
    | obj entries => exact absurd rfl (h entries)
    | str s => rfl
    | other => rfl
  · unfold get_github_emoji_id_map
    apply mapM_hits_error adapterEntry entries (fun p _ => adapterEntry_error_only p)
    refine ⟨(id, Json.str url), hmem, .panicked, ?_⟩
    have hcl : classifyUrl url = Except.error RunError.panicked := by
      unfold classifyUrl
      rw [if_pos hu]
      rw [mapM_hits_error parseCodePoint _ (fun t _ => parseCodePoint_error_only t)
        ⟨t, ht, .panicked, hbad⟩]
    unfold adapterEntry
    simp only [hcl]

/-- Witness for C4's amended theorem at a concrete input: a hex segment
`"zz"` makes the adapter panic. -/
theorem C4_amended_witness :
    get_github_emoji_id_map (Json.obj [("bad", Json.str "https://x/unicode/zz.png")]) =
      Except.error RunError.panicked :=
  C4_amended (Json.obj [("bad", Json.str "https://x/unicode/zz.png")])
    (Or.inr ⟨[("bad", Json.str "https://x/unicode/zz.png")], "bad", "https://x/unicode/zz.png",
      rfl, by simp, by decide, "zz", by decide, by rfl⟩)

/-- Claim C7 (counterexample): the URL
`"https://h/unicode/a/1f600.png"` is classified Unicode even though the
segment immediately before the file name is `"a"`, not `"unicode"`. -/
theorem C7_counterexample :
    (∃ cps, classifyUrl "https://h/unicode/a/1f600.png" =
        Except.ok (EmojiLiteral.Unicode cps)) ∧
      penultSeg "https://h/unicode/a/1f600.png" ≠ "unicode" := by
  constructor
  · exact ⟨[Char.ofNat 0x1F600], by rfl⟩
  · decide

/-- Claim C7 (amended): a shortcode entry is classified Unicode (or panics
on a bad hex segment) exactly when its URL contains `"/unicode/"` anywhere
as a substring, and is classified Custom — carrying the last `/`-segment
truncated before the first `".png"` — exactly otherwise. -/
theorem C7_amended (url : String) :
    (((∃ cps, classifyUrl url = Except.ok (EmojiLiteral.Unicode cps)) ∨
        classifyUrl url = Except.error RunError.panicked) ↔
      strContains url "/unicode/" = true) ∧
    ((classifyUrl url = Except.ok (EmojiLiteral.Custom [fileStem url])) ↔
      strContains url "/unicode/" = false) := by
  cases hc : strContains url "/unicode/" with
  | false =>
    have hcu : classifyUrl url = Except.ok (EmojiLiteral.Custom [fileStem url]) := by
      unfold classifyUrl
      rw [hc]
      simp
    constructor
    · rw [hcu]
      simp
    · rw [hcu]
      simp
  | true =>
    cases hm : (strSplitOn (fileStem url) "-").mapM parseCodePoint with
    | error e =>
      have he : e = RunError.panicked :=
        mapM_error_only parseCodePoint _ (fun t _ => parseCodePoint_error_only t) _ hm
      have hcu : classifyUrl url = Except.error RunError.panicked := by
        unfold classifyUrl
        rw [if_pos hc, hm, he]
      constructor
      · rw [hcu]
        simp
      · rw [hcu]
        simp
    | ok cps =>
      have hcu : classifyUrl url = Except.ok (EmojiLiteral.Unicode cps) := by
        unfold classifyUrl
        rw [if_pos hc, hm]
      constructor
      · rw [hcu]
        simp
      · rw [hcu]
        simp

/- ### Claims about the precomputed key index -/

/-- Membership in a Unicode key's bucket survives the rest of the build
loop. -/
theorem buildMapsAux_key_mono (m : List (String × EmojiLiteral))
    (acc : List (String × List String) × List (String × List String)) (k id : String)
    (h : ∃ ids, mapGet? acc.2 k = some ids ∧ id ∈ ids) :
    ∃ ids', mapGet? (buildMapsAux m acc).2 k = some ids' ∧ id ∈ ids' := by
  induction m generalizing acc with
  | nil => exact h
  | cons p rest ih =>
    rcases p with ⟨id', lit⟩
    cases lit with
    | Unicode cps =>
      rcases h with ⟨ids, hg, hmem⟩
      exact ih _ (insertPush_mem_mono acc.2 k (String.mk cps) id' id ids hg hmem)
    | Custom uri => exact ih _ h

/-- Every Unicode entry of the shortcode map ends up, keyed by the raw
concatenation of its codepoints, in `key_to_ids`. -/
theorem buildMapsAux_unicode_mem (m : List (String × EmojiLiteral))
    (acc : List (String × List String) × List (String × List String))
    (id : String) (cps : List Char)
    (h : (id, EmojiLiteral.Unicode cps) ∈ m) :
    ∃ ids, mapGet? (buildMapsAux m acc).2 (String.mk cps) = some ids ∧ id ∈ ids := by
  induction m generalizing acc with
  | nil => cases h
  | cons p rest ih =>
    rcases List.mem_cons.mp h with heq | hmem
    · rcases heq.symm with rfl
      refine buildMapsAux_key_mono rest _ _ _ ?_
      exact ⟨_, mapGet?_insertPush_self acc.2 (String.mk cps) id,
        List.mem_append_right _ (by simp)⟩
    · rcases p with ⟨id', lit⟩
      cases lit with
      | Unicode cps' => exact ih _ hmem
      | Custom uri => exact ih _ hmem

/-- Claim C6 (counterexample): a Unicode entry whose codepoint sequence is
the single spacing-combining mark U+0903 is stored under the raw key
`"ः"`, while the claim's normalization of that sequence is the empty
string. -/
theorem C6_counterexample :
    (buildMaps [("x", EmojiLiteral.Unicode [Char.ofNat 0x903])]).2 =
      [(String.mk [Char.ofNat 0x903], ["x"])] ∧
    specNormalizeCps [Char.ofNat 0x903] = "" ∧
    String.mk [Char.ofNat 0x903] ≠ "" := by
  refine ⟨rfl, by decide, by decide⟩

/-- Claim C6 (amended): every Unicode shortcode entry is stored in
`key_to_ids` under the plain concatenation of its codepoint sequence —
no spacing-combining mark is removed on the shortcode side. -/
theorem C6_amended (m : List (String × EmojiLiteral)) (id : String) (cps : List Char)
    (h : (id, EmojiLiteral.Unicode cps) ∈ m) :
    ∃ ids, mapGet? (buildMaps m).2 (String.mk cps) = some ids ∧ id ∈ ids :=
  buildMapsAux_unicode_mem m ([], []) id cps h

/-- Witness for C6's amended theorem at a concrete input. -/
theorem C6_amended_witness :
    ∃ ids, mapGet? (buildMaps [("grinning", EmojiLiteral.Unicode ['😀'])]).2
        (String.mk ['😀']) = some ids ∧ "grinning" ∈ ids :=
  C6_amended [("grinning", EmojiLiteral.Unicode ['😀'])] "grinning" ['😀'] (by simp)

/- ### Claims about the categorizer's stream processing -/

/-- Claim C2 (counterexample): a Row whose normalized key matches a
shortcode, arriving before any BeginCategory — or before any
BeginSubcategory under a valid category — does not complete normally and
is not skipped: the categorizer fails (out-of-bounds indexing of the
category stack is a panic). -/
theorem C2_counterexample :
    categorize_github_emoji_ids [("grinning", EmojiLiteral.Unicode ['😀'])]
        [Tr.row (some "😀")] = Except.error RunError.panicked ∧
    (∀ r, categorize_github_emoji_ids [("grinning", EmojiLiteral.Unicode ['😀'])]
        [Tr.row (some "😀")] ≠ Except.ok r) ∧
    categorize_github_emoji_ids [("grinning", EmojiLiteral.Unicode ['😀'])]
        [Tr.th (some "bighead") "A", Tr.row (some "😀")] = Except.error RunError.panicked ∧
    (∀ r, categorize_github_emoji_ids [("grinning", EmojiLiteral.Unicode ['😀'])]
        [Tr.th (some "bighead") "A", Tr.row (some "😀")] ≠ Except.ok r) := by
  have h1 : categorize_github_emoji_ids [("grinning", EmojiLiteral.Unicode ['😀'])]
      [Tr.row (some "😀")] = Except.error RunError.panicked := by rfl
  have h2 : categorize_github_emoji_ids [("grinning", EmojiLiteral.Unicode ['😀'])]
      [Tr.th (some "bighead") "A", Tr.row (some "😀")] =
      Except.error RunError.panicked := by rfl
  refine ⟨h1, ?_, h2, ?_⟩
  · intro r hr
    exact Except.noConfusion (h1.symm.trans hr)
  · intro r hr
    exact Except.noConfusion (h2.symm.trans hr)

/-- Claim C2 (amended): a Row event whose normalized key matches a
shortcode, processed while the category stack holds fewer than two
entries (before any BeginCategory, or before any BeginSubcategory under a
valid category), makes the run abort with a panic; only rows whose keys
match nothing are silently skipped there. -/
theorem C2_row_matched_short_stack_panics (keyToIds : List (String × List String))
    (st : CatState) (text : String) (ids : List String)
    (h1 : st.stack.length < 2)
    (h2 : mapGet? keyToIds (normalizeKey text) = some ids) :
    categorizeStep keyToIds st (Tr.row (some text)) = Except.error RunError.panicked := by
  have hnone : st.stack[1]? = none := List.getElem?_eq_none (by omega)
  cases h0 : st.stack[0]? with
  | none => simp [categorizeStep, h2, h0, hnone]
  | some c => simp [categorizeStep, h2, h0, hnone]

/-- Witness for C2's amended theorem at a concrete input: a matching row
with an empty category stack panics. -/
theorem C2_amended_witness :
    categorizeStep [(String.mk ['😀'], ["grinning"])] ⟨[], []⟩ (Tr.row (some "😀")) =
      Except.error RunError.panicked :=
  C2_row_matched_short_stack_panics [(String.mk ['😀'], ["grinning"])] ⟨[], []⟩ "😀"
    ["grinning"] (by simp) (by rfl)

/-- Claim C5 (counterexample): a chart stream whose only event is a
BeginSubcategory — with no current category — does not make the run fail:
it completes, producing a category named by the subcategory title. -/
theorem C5_counterexample :
    categorize_github_emoji_ids [] [Tr.th (some "mediumhead") "S"] =
      Except.ok [("S", [("S", [])])] ∧
    (∀ e, categorize_github_emoji_ids [] [Tr.th (some "mediumhead") "S"] ≠
      Except.error e) := by
  have h : categorize_github_emoji_ids [] [Tr.th (some "mediumhead") "S"] =
      Except.ok [("S", [("S", [])])] := by rfl
  refine ⟨h, ?_⟩
  intro e he
  exact Except.noConfusion (h.symm.trans he)

/-- Claim C5 (amended): a BeginSubcategory event with no current category
does not abort the run: its title is pushed as the sole stack entry —
acting thereafter as the current category — and an empty entry
`categorized[title][title]` is created. -/
theorem C5_mediumhead_empty_stack_no_failure (keyToIds : List (String × List String))
    (c : Categorized) (text : String) :
    ∃ st' : CatState,
      categorizeStep keyToIds ⟨c, []⟩ (Tr.th (some "mediumhead") text) = Except.ok st' ∧
      st'.stack = [to_title_case text] ∧
      ∃ inner, mapGet? st'.categorized (to_title_case text) = some inner ∧
        mapGet? inner (to_title_case text) = some [] := by
  refine ⟨⟨mapInsertReplace c (to_title_case text)
      (mapInsertReplace ((mapGet? c (to_title_case text)).getD []) (to_title_case text) []),
      [to_title_case text]⟩, by rfl, rfl, ?_⟩
  exact ⟨_, mapGet?_insertReplace_self _ _ _, mapGet?_insertReplace_self _ _ _⟩

/-- Claim C3 (counterexample): after BeginCategory "A", BeginSubcategory
"S" and a matching row, a second BeginCategory "A" does not continue the
bucket: the accumulated subcategory and id-group are gone from the final
result. -/
theorem C3_counterexample :
    categorize_github_emoji_ids [("grinning", EmojiLiteral.Unicode ['😀'])]
        [Tr.th (some "bighead") "A", Tr.th (some "mediumhead") "S",
          Tr.row (some "😀"), Tr.th (some "bighead") "A"] =
      Except.ok [("A", [])] ∧
    (∀ r inner, categorize_github_emoji_ids [("grinning", EmojiLiteral.Unicode ['😀'])]
        [Tr.th (some "bighead") "A", Tr.th (some "mediumhead") "S",
          Tr.row (some "😀"), Tr.th (some "bighead") "A"] = Except.ok r →
      mapGet? r "A" = some inner → mapGet? inner "S" = none) := by
  have h : categorize_github_emoji_ids [("grinning", EmojiLiteral.Unicode ['😀'])]
      [Tr.th (some "bighead") "A", Tr.th (some "mediumhead") "S",
        Tr.row (some "😀"), Tr.th (some "bighead") "A"] =
      Except.ok [("A", [])] := by rfl
  refine ⟨h, ?_⟩
  intro r inner hr hin
  have hre : ([("A", [])] : Categorized) = r := Except.ok.inj (h.symm.trans hr)
  rcases hre with rfl
  have hA : mapGet? ([("A", [])] : Categorized) "A" = some [] := rfl
  have : ([] : Subcats) = inner := Option.some.inj (hA.symm.trans hin)
  rcases this with rfl
  rfl

/-- Claim C3 (amended): a later BeginCategory whose title already exists
replaces the accumulated category with an empty one (HashMap `insert`),
and a later BeginSubcategory whose title already exists under the current
category replaces its accumulated group list with an empty one: earlier
content is discarded, not continued. -/
theorem C3_duplicate_titles_reset (keyToIds : List (String × List String))
    (st : CatState) (text : String) :
    (∀ st', categorizeStep keyToIds st (Tr.th (some "bighead") text) = Except.ok st' →
      mapGet? st'.categorized (to_title_case text) = some []) ∧
    (∀ st', categorizeStep keyToIds st (Tr.th (some "mediumhead") text) = Except.ok st' →
      ∃ inner, mapGet? st'.categorized (st'.stack.headD "") = some inner ∧
        mapGet? inner (to_title_case text) = some []) := by
  constructor
  · intro st' h
    rcases Except.ok.inj h with rfl
    exact mapGet?_insertReplace_self _ _ _
  · intro st' h
    simp only [categorizeStep] at h
    rw [if_pos trivial] at h
    cases hhead : ((if st.stack.length > 1 then st.stack.dropLast else st.stack) ++
        [to_title_case text]).head? with
    | none =>
      simp only [hhead] at h
      exact Except.noConfusion h
    | some cat0 =>
      simp only [hhead] at h
      rcases Except.ok.inj h with rfl
      refine ⟨mapInsertReplace ((mapGet? st.categorized cat0).getD []) (to_title_case text) [],
        ?_, mapGet?_insertReplace_self _ _ _⟩
      show mapGet? (mapInsertReplace st.categorized cat0 _)
        (((if st.stack.length > 1 then st.stack.dropLast else st.stack) ++
          [to_title_case text]).headD "") = _
      rw [headD_of_head? _ _ _ hhead]
      exact mapGet?_insertReplace_self _ _ _

/-- Witness for C3's amended theorem at concrete inputs: a repeated
category title leaves an empty bucket, and a repeated subcategory title an
empty group list. -/
theorem C3_duplicate_titles_reset_witness :
    mapGet? ([("A", [])] : Categorized) (to_title_case "A") = some [] ∧
    (∃ inner, mapGet? ([("A", [("S", [])])] : Categorized) ((["A", "S"] : List String).headD "") =
        some inner ∧ mapGet? inner (to_title_case "S") = some []) := by
  constructor
  · exact (C3_duplicate_titles_reset []
      ⟨[("A", [("S", [["grinning"]])])], ["A"]⟩ "A").1 ⟨[("A", [])], ["A"]⟩ (by rfl)
  · exact (C3_duplicate_titles_reset []
      ⟨[("A", [("S", [["grinning"]])])], ["A"]⟩ "S").2 ⟨[("A", [("S", [])])], ["A", "S"]⟩ (by rfl)

/-- Claim C9 (counterexample): with no Custom shortcode at all, a chart
heading whose title-cased text is "GitHub Custom Emoji" still puts that
category into the result, so the category's presence does not imply that
a Custom entry exists. -/
theorem C9_counterexample :
    categorize_github_emoji_ids [] [Tr.th (some "bighead") "GitHub Custom Emoji"] =
      Except.ok [("GitHub Custom Emoji", [])] ∧
    (buildMaps ([] : List (String × EmojiLiteral))).1 = [] ∧
    mapGet? ([("GitHub Custom Emoji", [])] : Categorized) "GitHub Custom Emoji" = some [] := by
  exact ⟨by rfl, rfl, rfl⟩

/-- Claim C9 (amended): when at least one shortcode is Custom, the result
maps "GitHub Custom Emoji" to exactly one subcategory with the empty title
holding the groups of `custom_to_ids`; when no shortcode is Custom, the
custom-bucket step adds nothing and the result is exactly the chart fold's
map (which contains that category only if the chart itself created it). -/
theorem C9_amended (m : List (String × EmojiLiteral)) (trs : List Tr) (r : Categorized)
    (h : categorize_github_emoji_ids m trs = Except.ok r) :
    ((buildMaps m).1 ≠ [] →
      mapGet? r "GitHub Custom Emoji" = some [("", (buildMaps m).1.map (fun p => p.2))]) ∧
    ((buildMaps m).1 = [] → ∃ st : CatState,
      trs.foldlM (categorizeStep (buildMaps m).2) ⟨[], []⟩ = Except.ok st ∧
      r = st.categorized) := by
  unfold categorize_github_emoji_ids at h
  cases hf : trs.foldlM (categorizeStep (buildMaps m).2) ⟨[], []⟩ with
  | error e =>
    simp only [hf] at h
    exact Except.noConfusion h
  | ok st =>
    simp only [hf] at h
    by_cases hc : (buildMaps m).1 = []
    · rw [if_pos hc] at h
      rcases Except.ok.inj h with rfl
      exact ⟨fun hne => absurd hc hne, fun _ => ⟨st, rfl, rfl⟩⟩
    · rw [if_neg hc] at h
      rcases Except.ok.inj h with rfl
      exact ⟨fun _ => mapGet?_insertReplace_self _ _ _, fun he => absurd he hc⟩

/-- Witness for C9's amended theorem at a concrete input: one Custom
shortcode yields the custom bucket with its single empty-titled
subcategory. -/
theorem C9_amended_witness :
    mapGet? ([("GitHub Custom Emoji", [("", [["octocat"]])])] : Categorized)
      "GitHub Custom Emoji" =
      some [("", (buildMaps [("octocat", EmojiLiteral.Custom ["octocat"])]).1.map
        (fun p => p.2))] :=
  (C9_amended [("octocat", EmojiLiteral.Custom ["octocat"])] []
    [("GitHub Custom Emoji", [("", [["octocat"]])])] (by rfl)).1 (by decide)

/- ### Grapheme segmentation lemmas and normalization idempotence -/

/-- The first cluster produced by `segGo` starts with the first
character. -/
theorem segGo_shape (br : Char → Char → Bool) (cs : List Char) (c : Char) :
    ∃ t gs, segGo br c cs = (c :: t) :: gs := by
  induction cs generalizing c with
  | nil => exact ⟨[], [], rfl⟩
  | cons d ds ih =>
    rcases ih d with ⟨t, gs, h⟩
    by_cases hb : br c d
    · exact ⟨[], (d :: t) :: gs, by simp [segGo, h, hb]⟩
    · exact ⟨d :: t, gs, by simp [segGo, h, hb]⟩

/-- Flattening the segmentation recovers the input. -/
theorem segGo_flatten (br : Char → Char → Bool) (cs : List Char) (c : Char) :
    (segGo br c cs).flatten = c :: cs := by
  induction cs generalizing c with
  | nil => simp [segGo]
  | cons d ds ih =>
    have ihd := ih d
    rcases segGo_shape br ds d with ⟨t, gs, h⟩
    rw [h] at ihd
    by_cases hb : br c d
    · simp only [segGo, h, if_pos hb]
      simp only [List.flatten_cons] at ihd ⊢
      simp [ihd]
    · simp only [segGo, h, if_neg hb]
      simp only [List.flatten_cons] at ihd ⊢
      simp [ihd]

/-- Flattening the segmentation of a character list recovers it. -/
theorem segment_flatten (br : Char → Char → Bool) (l : List Char) :
    (segment br l).flatten = l := by
  cases l with
  | nil => rfl
  | cons c cs => exact segGo_flatten br cs c

/-- Every produced cluster is non-empty and internally boundary-free. -/
theorem segGo_noSplit (br : Char → Char → Bool) (cs : List Char) (c : Char) :
    ∀ g ∈ segGo br c cs, g ≠ [] ∧ NoSplit br g := by
  induction cs generalizing c with
  | nil =>
    intro g hg
    simp only [segGo, List.mem_singleton] at hg
    subst hg
    exact ⟨by simp, List.chain'_singleton c⟩
  | cons d ds ih =>
    intro g hg
    rcases segGo_shape br ds d with ⟨t, gs, h⟩
    cases hb : br c d with
    | true =>
      simp only [segGo, h, hb, if_pos] at hg
      rcases List.mem_cons.mp hg with rfl | hg'
      · exact ⟨by simp, List.chain'_singleton c⟩
      · exact ih d g (h ▸ hg')
    | false =>
      simp only [segGo, h, hb] at hg
      rcases List.mem_cons.mp hg with rfl | hg'
      · refine ⟨by simp, List.chain'_cons.mpr ⟨hb, ?_⟩⟩
        exact (ih d (d :: t) (h ▸ List.mem_cons_self _ _)).2
      · exact ih d g (h ▸ List.mem_cons_of_mem _ hg')

/-- A boundary-free list segments into the single cluster it is. -/
theorem segGo_of_noSplit (br : Char → Char → Bool) (bs : List Char) (c : Char)
    (h : NoSplit br (c :: bs)) : segGo br c bs = [c :: bs] := by
  induction bs generalizing c with
  | nil => rfl
  | cons d ds ih =>
    rcases List.chain'_cons.mp h with ⟨hrel, hco⟩
    simp [segGo, ih d hco, hrel]

/-- Segmenting a boundary-free block followed by more input: the block
stays one piece; it either stands alone (boundary to what follows) or
absorbs the next cluster (no boundary). -/
theorem segGo_append_block (br : Char → Char → Bool) (bs : List Char) (c d : Char)
    (ds : List Char) (g : List Char) (gs : List (List Char))
    (hco : NoSplit br (c :: bs))
    (hseg : segGo br d ds = g :: gs) :
    segGo br c (bs ++ d :: ds) =
      if br (lastChar c bs) d then (c :: bs) :: g :: gs
      else ((c :: bs) ++ g) :: gs := by
  induction bs generalizing c with
  | nil =>
    simp only [List.nil_append, segGo, hseg, lastChar]
    by_cases hb : br c d
    · simp [hb]
    · simp [hb]
  | cons e bs2 ih =>
    rcases List.chain'_cons.mp hco with ⟨hrel, hco2⟩
    have ih2 := ih e hco2
    simp only [List.cons_append, segGo, List.append_eq]
    rw [ih2]
    by_cases hb : br (lastChar e bs2) d
    · rw [if_pos hb]
      have : lastChar c (e :: bs2) = lastChar e bs2 := rfl
      rw [this, if_pos hb, hrel]
      simp
    · rw [if_neg hb]
      have : lastChar c (e :: bs2) = lastChar e bs2 := rfl
      rw [this, if_neg hb, hrel]
      simp

/-- Re-segmenting a concatenation of non-empty boundary-free kept blocks
yields clusters that each contain a whole block, so each still passes the
keep filter. -/
theorem segment_flatten_keep (br : Char → Char → Bool) (mc : Char → Bool) :
    ∀ L : List (List Char),
      (∀ g ∈ L, g ≠ [] ∧ NoSplit br g ∧ keepCluster mc g = true) →
      ∀ g' ∈ segment br L.flatten, keepCluster mc g' = true := by
  intro L
  induction L with
  | nil =>
    intro _ g' hg'
    simp [segment] at hg'
  | cons b L2 ih =>
    intro hall g' hg'
    obtain ⟨hbne, hbco, hbk⟩ := hall b (List.mem_cons_self _ _)
    obtain ⟨c, bs, rfl⟩ : ∃ c bs, b = c :: bs := by
      cases b with
      | nil => exact absurd rfl hbne
      | cons c bs => exact ⟨c, bs, rfl⟩
    have ih2 : ∀ g'' ∈ segment br L2.flatten, keepCluster mc g'' = true :=
      ih (fun g hg => hall g (List.mem_cons_of_mem _ hg))
    rw [List.flatten_cons] at hg'
    cases hL2 : L2.flatten with
    | nil =>
      rw [hL2, List.append_nil] at hg'
      have : segment br (c :: bs) = [c :: bs] := segGo_of_noSplit br bs c hbco
      rw [this] at hg'
      rcases List.mem_singleton.mp hg' with rfl
      exact hbk
    | cons d ds =>
      rw [hL2] at hg' ih2
      rcases segGo_shape br ds d with ⟨t, gs, hseg⟩
      have hblk := segGo_append_block br bs c d ds (d :: t) gs hbco hseg
      have hg'' : g' ∈ segGo br c (bs ++ d :: ds) := hg'
      rw [hblk] at hg''
      have hseg' : segment br (d :: ds) = (d :: t) :: gs := hseg
      by_cases hb : br (lastChar c bs) d
      · rw [if_pos hb] at hg''
        rcases List.mem_cons.mp hg'' with rfl | hg3
        · exact hbk
        · exact ih2 g' (hseg' ▸ hg3)
      · rw [if_neg hb] at hg''
        rcases List.mem_cons.mp hg'' with rfl | hg3
        · unfold keepCluster at hbk ⊢
          rw [List.any_append, hbk, Bool.true_or]
        · exact ih2 g' (hseg' ▸ List.mem_cons_of_mem _ hg3)

/-- Normalization is idempotent on character lists. -/
theorem normalizeChars_idem (br : Char → Char → Bool) (mc : Char → Bool) (l : List Char) :
    normalizeChars br mc (normalizeChars br mc l) = normalizeChars br mc l := by
  unfold normalizeChars
  have hall : ∀ g ∈ (segment br l).filter (keepCluster mc),
      g ≠ [] ∧ NoSplit br g ∧ keepCluster mc g = true := by
    intro g hg
    have hg1 := List.mem_filter.mp hg
    have hg2 : g ≠ [] ∧ NoSplit br g := by
      cases l with
      | nil => simp [segment] at hg1
      | cons c cs => exact segGo_noSplit br cs c g hg1.1
    exact ⟨hg2.1, hg2.2, hg1.2⟩
  have hkeep := segment_flatten_keep br mc ((segment br l).filter (keepCluster mc)) hall
  rw [List.filter_eq_self.mpr hkeep, segment_flatten]

/-- Claim C8 (confirmed): the key normalization — segment into grapheme
clusters, drop each cluster consisting entirely of spacing-combining
marks, concatenate the rest — is idempotent, for every pairwise cluster
boundary rule and every mark predicate, hence in particular for the
modelled `normalizeKey`. -/
theorem C8_normalize_idempotent (br : Char → Char → Bool) (mc : Char → Bool) (s : String) :
    normalizeKeyGen br mc (normalizeKeyGen br mc s) = normalizeKeyGen br mc s := by
  unfold normalizeKeyGen
  exact congrArg String.mk (normalizeChars_idem br mc s.data)

/-- Claim C1 (code defect): the categorization result is a std HashMap,
whose iteration order is arbitrary; at this input an iteration order with
the custom bucket first — and the chart category last — is admissible, so
iterating the result is not guaranteed to follow BeginCategory order nor
to yield the custom bucket last. -/
theorem C1_iteration_order_not_guaranteed :
    ∃ r, categorize_github_emoji_ids
        [("grinning", EmojiLiteral.Unicode ['😀']), ("octocat", EmojiLiteral.Custom ["octocat"])]
        [Tr.th (some "bighead") "A", Tr.th (some "mediumhead") "S", Tr.row (some "😀")] =
      Except.ok r ∧
    hashIterOrder r
      [("GitHub Custom Emoji", [("", [["octocat"]])]), ("A", [("S", [["grinning"]])])] ∧
    (([("GitHub Custom Emoji", [("", [["octocat"]])]),
        ("A", [("S", [["grinning"]])])] : Categorized).getLast? ≠
      some ("GitHub Custom Emoji", [("", [["octocat"]])])) := by
  refine ⟨[("A", [("S", [["grinning"]])]), ("GitHub Custom Emoji", [("", [["octocat"]])])],
    by rfl, ?_, by decide⟩
  exact List.Perm.swap ("A", [("S", [["grinning"]])])
    ("GitHub Custom Emoji", [("", [["octocat"]])]) []

end EmojiSheet
